import Mathlib

/-!
Verification of the merge engines in `merge.py`.

The Document Model is the set of values that `load_file` produces for the
structural formats (`.json`, `.yaml`, `.yml`, `.properties`): Python dicts
with string keys, lists, and the scalar primitives string / int / bool /
None.  Python dicts preserve insertion order and have unique keys, so a
dict is embedded as an association list `List (String × PyVal)` whose
operations read and write the first occurrence of a key.
-/

inductive PyVal where
  | str (s : String)
  | int (n : Int)
  | bool (b : Bool)
  | none
  | dict (entries : List (String × PyVal))
  | list (elems : List PyVal)
deriving Repr

mutual
def pyBeq : PyVal → PyVal → Bool
  | PyVal.str a, PyVal.str b => a = b
  | PyVal.int a, PyVal.int b => a = b
  | PyVal.bool a, PyVal.bool b => a = b
  | PyVal.none, PyVal.none => true
  | PyVal.dict a, PyVal.dict b => pyBeqEntries a b
  | PyVal.list a, PyVal.list b => pyBeqList a b
  | _, _ => false

def pyBeqEntries : List (String × PyVal) → List (String × PyVal) → Bool
  | [], [] => true
  | p :: ps, q :: qs => (decide (p.1 = q.1)) && pyBeq p.2 q.2 && pyBeqEntries ps qs
  | _, _ => false

def pyBeqList : List PyVal → List PyVal → Bool
  | [], [] => true
  | x :: xs, y :: ys => pyBeq x y && pyBeqList xs ys
  | _, _ => false
end

mutual
theorem pyBeq_iff : ∀ (a b : PyVal), pyBeq a b = true ↔ a = b
  | PyVal.str _, b => by cases b <;> simp [pyBeq]
  | PyVal.int _, b => by cases b <;> simp [pyBeq]
  | PyVal.bool _, b => by cases b <;> simp [pyBeq]
  | PyVal.none, b => by cases b <;> simp [pyBeq]
  | PyVal.dict l1, b => by
      cases b <;> simp [pyBeq]
      exact pyBeqEntries_iff l1 _
  | PyVal.list l1, b => by
      cases b <;> simp [pyBeq]
      exact pyBeqList_iff l1 _

theorem pyBeqEntries_iff : ∀ (l1 l2 : List (String × PyVal)),
    pyBeqEntries l1 l2 = true ↔ l1 = l2
  | [], l2 => by cases l2 <;> simp [pyBeqEntries]
  | _ :: _, [] => by simp [pyBeqEntries]
  | p :: ps, q :: qs => by
      simp [pyBeqEntries, pyBeq_iff p.2 q.2, pyBeqEntries_iff ps qs,
        Prod.ext_iff, and_assoc]

theorem pyBeqList_iff : ∀ (l1 l2 : List PyVal), pyBeqList l1 l2 = true ↔ l1 = l2
  | [], l2 => by cases l2 <;> simp [pyBeqList]
  | _ :: _, [] => by simp [pyBeqList]
  | x :: xs, y :: ys => by
      simp [pyBeqList, pyBeq_iff x y, pyBeqList_iff xs ys]
end

instance : DecidableEq PyVal := fun a b => decidable_of_iff _ (pyBeq_iff a b)

/-- Python `key in a` / `a[key]` read: first (for a real dict, only)
occurrence of the key. -/
def dictGet : List (String × PyVal) → String → Option PyVal
  | [], _ => Option.none
  | p :: rest, k => if p.1 = k then Option.some p.2 else dictGet rest k

/-- Python `a[key] = v`: overwrite the value of an existing key in place,
otherwise append the new binding at the end. -/
def dictSet : List (String × PyVal) → String → PyVal → List (String × PyVal)
  | [], k, v => [(k, v)]
  | p :: rest, k, v => if p.1 = k then (k, v) :: rest else p :: dictSet rest k v

/-! `json.dumps(item, sort_keys=True)`: the canonical serialization used by
the sequence-deduplication step of `merge_data`.  Defaults of `json.dumps`:
`ensure_ascii=True` (every char outside printable ASCII becomes a `\uXXXX`
escape, lowercase hex, surrogate pairs above U+FFFF), item separator `", "`,
key separator `": "`. -/

def hexDigit (n : Nat) : Char :=
  if n < 10 then Char.ofNat (48 + n) else Char.ofNat (87 + n)

def hex4 (n : Nat) : String :=
  String.mk [hexDigit (n / 4096 % 16), hexDigit (n / 256 % 16),
             hexDigit (n / 16 % 16), hexDigit (n % 16)]

def uEscape (n : Nat) : String :=
  if n ≤ 0xFFFF then "\\u" ++ hex4 n
  else "\\u" ++ hex4 (0xD800 + (n - 0x10000) / 0x400)
       ++ "\\u" ++ hex4 (0xDC00 + (n - 0x10000) % 0x400)

def escapeChar (c : Char) : String :=
  if c = '"' then "\\\""
  else if c = '\\' then "\\\\"
  else if c = '\n' then "\\n"
  else if c = '\r' then "\\r"
  else if c = '\t' then "\\t"
  else if c = Char.ofNat 8 then "\\b"
  else if c = Char.ofNat 12 then "\\f"
  else if c.toNat < 0x20 || c.toNat > 0x7e then uEscape c.toNat
  else String.singleton c

def quoteStr (s : String) : String :=
  "\"" ++ String.join (s.toList.map escapeChar) ++ "\""

/-- Python string `<` (code-point lexicographic), on char lists. -/
def charListLt : List Char → List Char → Bool
  | [], [] => false
  | [], _ :: _ => true
  | _ :: _, [] => false
  | a :: as, b :: bs =>
    if a.toNat < b.toNat then true
    else if b.toNat < a.toNat then false
    else charListLt as bs

def strLt (s t : String) : Bool := charListLt s.toList t.toList

/-- Stable insertion of a (key, rendered value) pair into a key-sorted
list, ascending by Python string comparison. -/
def insertPair (p : String × String) : List (String × String) → List (String × String)
  | [] => [p]
  | q :: rest => if strLt q.1 p.1 then q :: insertPair p rest else p :: q :: rest

/-- `sorted(...)` by key (keys are unique in a Python dict, so comparison
never reaches the values). -/
def sortPairs : List (String × String) → List (String × String)
  | [] => []
  | p :: rest => insertPair p (sortPairs rest)

mutual
/-- `json.dumps(v, sort_keys=True)`.  For a dict, Python sorts the items
and then renders each one; rendering each item first and then sorting the
(key, rendered value) pairs by key produces the identical byte string. -/
def dumps : PyVal → String
  | PyVal.str s => quoteStr s
  | PyVal.int n => toString n
  | PyVal.bool b => if b then "true" else "false"
  | PyVal.none => "null"
  | PyVal.dict l =>
      "\x7b" ++ String.intercalate ", "
        ((sortPairs (dumpsEntries l)).map (fun p => quoteStr p.1 ++ ": " ++ p.2)) ++ "\x7d"
  | PyVal.list l => "[" ++ String.intercalate ", " (dumpsList l) ++ "]"

def dumpsEntries : List (String × PyVal) → List (String × String)
  | [] => []
  | p :: rest => (p.1, dumps p.2) :: dumpsEntries rest

def dumpsList : List PyVal → List String
  | [] => []
  | x :: rest => dumps x :: dumpsList rest
end

/-- The values that can appear in the `seen` set of `merge_data`'s
sequence branch: for a dict or list item the `json.dumps` string, for a
scalar item the scalar itself. -/
inductive HKey where
  | str (s : String)
  | int (n : Int)
  | bool (b : Bool)
  | none
deriving Repr, DecidableEq

def hashKey : PyVal → HKey
  | PyVal.dict l => HKey.str (dumps (PyVal.dict l))
  | PyVal.list l => HKey.str (dumps (PyVal.list l))
  | PyVal.str s => HKey.str s
  | PyVal.int n => HKey.int n
  | PyVal.bool b => HKey.bool b
  | PyVal.none => HKey.none

/-- Python `==` on the members of the `seen` set.  `True == 1` and
`False == 0` in Python, so int and bool cross-compare numerically. -/
def hkeyEq : HKey → HKey → Bool
  | HKey.str a, HKey.str b => a = b
  | HKey.int a, HKey.int b => a = b
  | HKey.int a, HKey.bool b => a = (if b then 1 else 0)
  | HKey.bool a, HKey.int b => (if a then (1 : Int) else 0) = b
  | HKey.bool a, HKey.bool b => a = b
  | HKey.none, HKey.none => true
  | _, _ => false

def seenContains (seen : List HKey) (h : HKey) : Bool :=
  seen.any (fun k => hkeyEq k h)

/-- The loop of `merge_data`'s sequence branch: keep an item iff its
hashable form is not yet in `seen`, then add that form to `seen`. -/
def dedupSeen (seen : List HKey) : List PyVal → List PyVal
  | [] => []
  | item :: rest =>
    if seenContains seen (hashKey item) then dedupSeen seen rest
    else item :: dedupSeen (seen ++ [hashKey item]) rest

mutual
/-- `merge_data(a, b)` of `merge.py` (lines 42-61); `a` is the destination
document, `b` the source document. -/
def merge_data : PyVal → PyVal → PyVal
  | PyVal.dict a, PyVal.dict b => PyVal.dict (mergeDict a b)
  | PyVal.list a, PyVal.list b => PyVal.list (dedupSeen [] (a ++ b))
  | _, b => b

/-- The dict branch of `merge_data`: `for key, value in b.items()`,
with `a[key] = merge_data(a[key], value)` when the key exists in `a`
and `a[key] = value` otherwise. -/
def mergeDict : List (String × PyVal) → List (String × PyVal) → List (String × PyVal)
  | a, [] => a
  | a, (k, v) :: rest =>
      mergeDict
        (dictSet a k (match dictGet a k with
          | Option.some av => merge_data av v
          | Option.none => v))
        rest
end

def isScalar : PyVal → Bool
  | PyVal.dict _ => false
  | PyVal.list _ => false
  | _ => true

def isDict : PyVal → Bool
  | PyVal.dict _ => true
  | _ => false

def isList : PyVal → Bool
  | PyVal.list _ => true
  | _ => false

/-- The duplicate relation of the specification's sequence-merge rule,
taken verbatim: two elements are duplicates iff both are scalars and
compare equal, or both are structured (map/sequence) and their canonical
serialized forms are byte-identical.  A scalar is never a duplicate of a
structured element under this relation. -/
def claimDup (x y : PyVal) : Bool :=
  if isScalar x && isScalar y then hkeyEq (hashKey x) (hashKey y)
  else if !isScalar x && !isScalar y then decide (dumps x = dumps y)
  else false

/-- The duplicate relation `merge_data` actually uses: the dedup keys
(canonical serialization for structured elements, the value itself for
scalars) compare equal under Python `==`. -/
def codeDup (x y : PyVal) : Bool := hkeyEq (hashKey x) (hashKey y)

/-- Concatenate-then-deduplicate keeping the first occurrence, with an
explicit duplicate relation `r`; `kept` is the list of already-kept items. -/
def dedupByRel (r : PyVal → PyVal → Bool) (kept : List PyVal) : List PyVal → List PyVal
  | [] => []
  | x :: rest =>
    if kept.any (fun y => r y x) then dedupByRel r kept rest
    else x :: dedupByRel r (kept ++ [x]) rest

/-- Sequence merge exactly as the specification words it. -/
def claimSeqMerge (a b : List PyVal) : List PyVal := dedupByRel claimDup [] (a ++ b)

/-- Sequence merge with the amended duplicate relation. -/
def amendedSeqMerge (a b : List PyVal) : List PyVal := dedupByRel codeDup [] (a ++ b)

/-! Normal values: dict keys unique (the invariant every Python dict has)
and, in every sequence, no two elements with the same dedup key.  Over
normal source documents the merge is idempotent in its second argument. -/

mutual
def normal : PyVal → Bool
  | PyVal.dict l => decide ((l.map Prod.fst).Nodup) && normalEntries l
  | PyVal.list l =>
      decide (l.Pairwise (fun x y => hkeyEq (hashKey x) (hashKey y) = false)) && normalList l
  | _ => true

def normalEntries : List (String × PyVal) → Bool
  | [] => true
  | p :: rest => normal p.2 && normalEntries rest

def normalList : List PyVal → Bool
  | [] => true
  | x :: rest => normal x && normalList rest
end

/-! The XML tree merge engine.  `xml.etree.ElementTree` elements carry a
tag, an attribute dict (string to string) and a list of child elements;
text content plays no role in `merge_xml_trees`, so an element is embedded
as tag, attribute mapping and children.  A tree is represented by its root
element (`tree.getroot()`). -/

inductive XmlElem where
  | mk (tag : String) (attrib : List (String × String)) (children : List XmlElem)
deriving Repr

def XmlElem.tag : XmlElem → String
  | XmlElem.mk t _ _ => t

def XmlElem.attrib : XmlElem → List (String × String)
  | XmlElem.mk _ a _ => a

def XmlElem.children : XmlElem → List XmlElem
  | XmlElem.mk _ _ c => c

def alookup : List (String × String) → String → Option String
  | [], _ => Option.none
  | p :: rest, k => if p.1 = k then Option.some p.2 else alookup rest k

/-- Python `dict.__eq__` on attribute mappings: same keys, same values,
order of insertion irrelevant. -/
def attribEq (a b : List (String × String)) : Bool :=
  a.all (fun p => alookup b p.1 = Option.some p.2)
    && b.all (fun p => alookup a p.1 = Option.some p.2)

/-- `child1.tag == child2.tag and child1.attrib == child2.attrib`. -/
def elemMatch (c1 c2 : XmlElem) : Bool :=
  (decide (c1.tag = c2.tag)) && attribEq c1.attrib c2.attrib

mutual
/-- `merge_elements(elem1, elem2)` of `merge.py` (lines 67-76), as the
value of the mutated `elem1`. -/
def merge_elements : XmlElem → XmlElem → XmlElem
  | XmlElem.mk t a ch1, XmlElem.mk _ _ ch2 => XmlElem.mk t a (mergeInto ch1 ch2)

/-- The outer loop `for child2 in elem2`: the destination's child list
after absorbing each source child in order. -/
def mergeInto (ch1 : List XmlElem) : List XmlElem → List XmlElem
  | [] => ch1
  | c2 :: rest => mergeInto (insertChild ch1 c2) rest

/-- One source child: scan the destination children in order; on the first
match recurse and stop (the matched child is mutated in place, i.e.
replaced by the recursive merge); if no child matches, append `child2`. -/
def insertChild : List XmlElem → XmlElem → List XmlElem
  | [], c2 => [c2]
  | c1 :: rest, c2 =>
    if elemMatch c1 c2 then merge_elements c1 c2 :: rest
    else c1 :: insertChild rest c2
end

/-- `merge_xml_trees(tree1, tree2)` (lines 63-79): merge the roots and
return the destination tree. -/
def merge_xml_trees (tree1 tree2 : XmlElem) : XmlElem := merge_elements tree1 tree2

/-! The folder walk (`merge_folders`, lines 101-125) and per-file driver
(`merge_files`, lines 81-99).  The file system is abstracted: whether the
two root folders exist, the `os.walk` enumeration of the source root
(relative directory path and file names per directory), whether a
destination file already exists, and what `load_file` yields for each
side.  The run is modeled as the list of actions it performs, in order. -/

inductive FileData where
  | structured (v : PyVal)
  | xml (t : XmlElem)
deriving Repr

structure Fs where
  aExists : Bool
  bExists : Bool
  walk : List (String × List String)
  dstExists : String → Bool
  loadSrc : String → Option FileData
  loadDst : String → Option FileData

inductive FsAction where
  | mkdir (dir : String)
  | copy (src dst : String)
  | write (dst : String) (data : FileData)
  | print (msg : String)
deriving Repr

/-- File actions touch the file system; `print` only emits a diagnostic. -/
def isFileOp : FsAction → Bool
  | FsAction.print _ => false
  | _ => true

/-- `name.split('/')`'s last component: the file name of a path. -/
def baseName (path : String) : String :=
  ((path.splitOn "/").getLast?).getD path

/-- `PurePath.suffix`: `i = name.rfind('.')`; the extension `name[i:]`
when `0 < i < len(name) - 1`, else the empty string. -/
def suffixOf (name : String) : String :=
  let cs := name.toList
  match cs.reverse.findIdx? (fun c => c = '.') with
  | Option.none => ""
  | Option.some j =>
    let i := cs.length - 1 - j
    if 0 < i ∧ i < cs.length - 1 then String.mk (cs.drop i) else ""

def lowerStr (s : String) : String := String.mk (s.toList.map Char.toLower)

def joinRel (dir f : String) : String := if dir = "" then f else dir ++ "/" ++ f

/-- `merge_files(src_file, dst_file)`: load both sides, warn when a load
yields nothing, dispatch on the (lowercased) suffix, save and report.  The
loader returns structured data exactly for the structural suffixes and an
XML tree exactly for `.xml`, so the kind mismatches are unreachable and
modeled as performing nothing. -/
def merge_files (fs : Fs) (src dst : String) : List FsAction :=
  let suffix := lowerStr (suffixOf (baseName src))
  match fs.loadSrc src, fs.loadDst dst with
  | Option.some srcData, Option.some dstData =>
    if suffix = ".json" ∨ suffix = ".yaml" ∨ suffix = ".yml" ∨ suffix = ".properties" then
      match dstData, srcData with
      | FileData.structured d, FileData.structured s =>
          [FsAction.write dst (FileData.structured (merge_data d s)),
           FsAction.print ("Merged: " ++ src)]
      | _, _ => []
    else if suffix = ".xml" then
      match dstData, srcData with
      | FileData.xml d, FileData.xml s =>
          [FsAction.write dst (FileData.xml (merge_xml_trees d s)),
           FsAction.print ("Merged: " ++ src)]
      | _, _ => []
    else [FsAction.print ("Skipped unsupported merge: " ++ src)]
  | _, _ => [FsAction.print ("Warning: Cannot read " ++ src ++ " or " ++ dst)]

/-- `merge_folders(folder_a, folder_b)`: abort with a diagnostic when
either root is missing; otherwise walk the source tree, mirror each
directory, and per file copy when the destination is absent, merge when
the suffix is supported, and skip otherwise. -/
def merge_folders (fs : Fs) : List FsAction :=
  if !fs.aExists || !fs.bExists then
    [FsAction.print "One or both folders do not exist."]
  else
    fs.walk.flatMap (fun entry =>
      FsAction.mkdir entry.1 ::
        entry.2.flatMap (fun f =>
          let src := joinRel entry.1 f
          let dst := src
          if !fs.dstExists dst then
            [FsAction.copy src dst, FsAction.print ("Copied: " ++ src)]
          else if lowerStr (suffixOf f) ∈ [".json", ".yaml", ".yml", ".properties", ".xml"] then
            merge_files fs src dst
          else
            [FsAction.print ("Skipped (already exists): " ++ src)]))

/-! Association-list lemmas for the dict operations. -/

theorem dictGet_dictSet_self (a : List (String × PyVal)) (k : String) (v : PyVal) :
    dictGet (dictSet a k v) k = Option.some v := by
  induction a with
  | nil => simp [dictSet, dictGet]
  | cons p rest ih =>
    by_cases h : p.1 = k
    · simp [dictSet, h, dictGet]
    · simp [dictSet, h, dictGet, ih]

theorem dictGet_dictSet_ne (a : List (String × PyVal)) (k k' : String) (v : PyVal)
    (h : k' ≠ k) : dictGet (dictSet a k v) k' = dictGet a k' := by
  induction a with
  | nil => simp [dictSet, dictGet, Ne.symm h]
  | cons p rest ih =>
    by_cases hp : p.1 = k
    · simp [dictSet, dictGet, hp, Ne.symm h]
    · simp [dictSet, dictGet, hp, ih]

theorem dictSet_self (a : List (String × PyVal)) (k : String) (v : PyVal)
    (h : dictGet a k = Option.some v) : dictSet a k v = a := by
  induction a with
  | nil => simp [dictGet] at h
  | cons p rest ih =>
    by_cases hp : p.1 = k
    · have hv : p.2 = v := by simpa [dictGet, hp] using h
      have hkv : (k, v) = p := by rw [← hp, ← hv]
      simp [dictSet, hp, hkv]
    · have h' : dictGet rest k = Option.some v := by simpa [dictGet, hp] using h
      simp [dictSet, hp, ih h']

theorem dictGet_eq_none_iff (a : List (String × PyVal)) (k : String) :
    dictGet a k = Option.none ↔ k ∉ a.map Prod.fst := by
  induction a with
  | nil => simp [dictGet]
  | cons p rest ih =>
    by_cases hp : p.1 = k
    · simp [dictGet, hp]
    · simp [dictGet, hp, ih, Ne.symm hp]

theorem dictGet_isSome_iff (a : List (String × PyVal)) (k : String) :
    (dictGet a k).isSome ↔ k ∈ a.map Prod.fst := by
  rw [← not_iff_not]
  simp [Option.isSome_iff_ne_none, dictGet_eq_none_iff]

theorem keys_dictSet_mem (a : List (String × PyVal)) (k : String) (v : PyVal)
    (h : k ∈ a.map Prod.fst) : (dictSet a k v).map Prod.fst = a.map Prod.fst := by
  induction a with
  | nil => simp at h
  | cons p rest ih =>
    by_cases hp : p.1 = k
    · simp [dictSet, hp]
    · rw [List.map_cons] at h
      have h' : k ∈ rest.map Prod.fst := by
        rcases List.mem_cons.mp h with h1 | h1
        · exact absurd h1.symm hp
        · exact h1
      simp [dictSet, hp, ih h']

theorem keys_dictSet_notMem (a : List (String × PyVal)) (k : String) (v : PyVal)
    (h : k ∉ a.map Prod.fst) : (dictSet a k v).map Prod.fst = a.map Prod.fst ++ [k] := by
  induction a with
  | nil => simp [dictSet]
  | cons p rest ih =>
    rw [List.map_cons] at h
    have hp : p.1 ≠ k := fun e => h (List.mem_cons.mpr (Or.inl e.symm))
    have h' : k ∉ rest.map Prod.fst := fun hm => h (List.mem_cons.mpr (Or.inr hm))
    simp [dictSet, hp, ih h']

/-- Value found under each key after the dict branch of `merge_data`:
keys of the source dict `b` must be unique (every Python dict's
invariant), since a repeated source key would be merged twice. -/
theorem mergeDict_get (b a : List (String × PyVal)) (hb : (b.map Prod.fst).Nodup)
    (k : String) :
    dictGet (mergeDict a b) k =
      match dictGet a k, dictGet b k with
      | Option.some av, Option.some bv => Option.some (merge_data av bv)
      | Option.some av, Option.none => Option.some av
      | Option.none, ob => ob := by
  induction b generalizing a with
  | nil =>
    rw [show mergeDict a [] = a from rfl, show dictGet [] k = Option.none from rfl]
    cases dictGet a k <;> rfl
  | cons p rest ih =>
    obtain ⟨k0, v0⟩ := p
    rw [List.map_cons] at hb
    obtain ⟨hb1, hb2⟩ := List.nodup_cons.mp hb
    rw [show mergeDict a ((k0, v0) :: rest)
        = mergeDict (dictSet a k0 (match dictGet a k0 with
            | Option.some av => merge_data av v0
            | Option.none => v0)) rest from rfl]
    rw [ih _ hb2]
    by_cases hk : k = k0
    · subst hk
      have hrest : dictGet rest k = Option.none := (dictGet_eq_none_iff rest k).mpr hb1
      rw [dictGet_dictSet_self, hrest, show dictGet ((k, v0) :: rest) k
        = Option.some v0 from by simp [dictGet]]
      cases dictGet a k <;> rfl
    · rw [dictGet_dictSet_ne _ _ _ _ hk, show dictGet ((k0, v0) :: rest) k
        = dictGet rest k from by simp [dictGet, Ne.symm hk]]

/-- C1: merging two maps keeps every destination-only key at its
destination value, binds every source-only key to its source value, binds
every shared key to the recursive merge of the two values, and therefore
every key of either input is present in the result. -/
theorem C1_map_merge (a b : List (String × PyVal)) (hb : (b.map Prod.fst).Nodup)
    (k : String) :
    merge_data (PyVal.dict a) (PyVal.dict b) = PyVal.dict (mergeDict a b)
    ∧ dictGet (mergeDict a b) k =
        (match dictGet a k, dictGet b k with
         | Option.some av, Option.some bv => Option.some (merge_data av bv)
         | Option.some av, Option.none => Option.some av
         | Option.none, ob => ob)
    ∧ ((dictGet (mergeDict a b) k).isSome
         = ((dictGet a k).isSome || (dictGet b k).isSome)) := by
  refine ⟨rfl, mergeDict_get b a hb k, ?_⟩
  rw [mergeDict_get b a hb k]
  cases dictGet a k <;> cases dictGet b k <;> rfl

/-- Witness for C1 at `a = {"x": 1}`, `b = {"x": 2, "y": 3}`: the shared
key `"x"` is bound to the recursive merge of the two values. -/
theorem C1_map_merge_witness :
    dictGet (mergeDict [("x", PyVal.int 1)] [("x", PyVal.int 2), ("y", PyVal.int 3)]) "x"
      = Option.some (merge_data (PyVal.int 1) (PyVal.int 2)) := by
  have h := C1_map_merge [("x", PyVal.int 1)] [("x", PyVal.int 2), ("y", PyVal.int 3)]
    (by decide) "x"
  exact h.2.1.trans (by decide)

/-- C2: when the two values are not both maps and not both sequences
(both scalars, or mismatched variants), `merge_data` returns the source
value unchanged. -/
theorem C2_source_wins (a b : PyVal)
    (h1 : ¬(isDict a = true ∧ isDict b = true))
    (h2 : ¬(isList a = true ∧ isList b = true)) :
    merge_data a b = b := by
  cases a <;> cases b <;> try rfl
  · exact absurd ⟨rfl, rfl⟩ h1
  · exact absurd ⟨rfl, rfl⟩ h2

/-- Witness for C2 at the spec's example values (`1` vs `2`) and at a
map-vs-scalar mismatch. -/
theorem C2_source_wins_witness :
    merge_data (PyVal.int 1) (PyVal.int 2) = PyVal.int 2
    ∧ merge_data (PyVal.dict [("k", PyVal.int 1)]) (PyVal.str "s") = PyVal.str "s" :=
  ⟨C2_source_wins (PyVal.int 1) (PyVal.int 2) (by decide) (by decide),
   C2_source_wins (PyVal.dict [("k", PyVal.int 1)]) (PyVal.str "s") (by decide) (by decide)⟩

/-- Key order produced by the dict branch: destination keys first, in
their original order, then the source-only keys in source order. -/
theorem mergeDict_keys (b a : List (String × PyVal)) (hb : (b.map Prod.fst).Nodup) :
    (mergeDict a b).map Prod.fst
      = a.map Prod.fst
        ++ (b.map Prod.fst).filter (fun k => decide (k ∉ a.map Prod.fst)) := by
  induction b generalizing a with
  | nil => simp [mergeDict]
  | cons p rest ih =>
    obtain ⟨k0, v0⟩ := p
    rw [List.map_cons] at hb
    obtain ⟨hb1, hb2⟩ := List.nodup_cons.mp hb
    rw [show mergeDict a ((k0, v0) :: rest)
        = mergeDict (dictSet a k0 (match dictGet a k0 with
            | Option.some av => merge_data av v0
            | Option.none => v0)) rest from rfl]
    rw [ih _ hb2, List.map_cons, List.filter_cons]
    have hfilter : ∀ (A : List String), k0 ∉ A →
        (rest.map Prod.fst).filter (fun k => decide (k ∉ A ++ [k0]))
          = (rest.map Prod.fst).filter (fun k => decide (k ∉ A)) := by
      intro A hA
      apply List.filter_congr
      intro k hk
      have hne : k ≠ k0 := fun e => hb1 (e ▸ hk)
      rw [decide_eq_decide]
      simp [hne]
    by_cases hk0 : k0 ∈ a.map Prod.fst
    · rw [keys_dictSet_mem _ _ _ hk0]
      simp [hk0]
    · rw [keys_dictSet_notMem _ _ _ hk0, hfilter _ hk0]
      simp [hk0]

/-- C10: the key order of a merged map is the destination's keys in their
original relative order followed by the source-only keys in their
relative source order. -/
theorem C10_key_order (a b : List (String × PyVal)) (hb : (b.map Prod.fst).Nodup) :
    merge_data (PyVal.dict a) (PyVal.dict b) = PyVal.dict (mergeDict a b)
    ∧ (mergeDict a b).map Prod.fst
        = a.map Prod.fst
          ++ (b.map Prod.fst).filter (fun k => decide (k ∉ a.map Prod.fst)) :=
  ⟨rfl, mergeDict_keys b a hb⟩

/-- Witness for C10 at `a = {"x": 1, "z": 4}`, `b = {"y": 3, "x": 2}`:
keys come out as `["x", "z", "y"]`. -/
theorem C10_key_order_witness :
    (mergeDict [("x", PyVal.int 1), ("z", PyVal.int 4)]
        [("y", PyVal.int 3), ("x", PyVal.int 2)]).map Prod.fst
      = ["x", "z", "y"] := by
  have h := C10_key_order [("x", PyVal.int 1), ("z", PyVal.int 4)]
    [("y", PyVal.int 3), ("x", PyVal.int 2)] (by decide)
  exact h.2.trans (by decide)

/-! Sequence merge: the `seen`-set loop agrees with deduplication by the
pairwise relation on dedup keys. -/

theorem any_map_hashKey (kept : List PyVal) (hx : HKey) :
    (kept.map hashKey).any (fun k => hkeyEq k hx) = kept.any (fun y => hkeyEq (hashKey y) hx) := by
  induction kept with
  | nil => rfl
  | cons y ys ih => simp [ih]

theorem dedupSeen_eq_dedupByRel (items kept : List PyVal) :
    dedupSeen (kept.map hashKey) items = dedupByRel codeDup kept items := by
  induction items generalizing kept with
  | nil => rfl
  | cons x rest ih =>
    have hc : seenContains (kept.map hashKey) (hashKey x)
        = kept.any (fun y => codeDup y x) := by
      rw [seenContains, any_map_hashKey]
      rfl
    rw [show dedupSeen (kept.map hashKey) (x :: rest)
        = if seenContains (kept.map hashKey) (hashKey x) then dedupSeen (kept.map hashKey) rest
          else x :: dedupSeen (kept.map hashKey ++ [hashKey x]) rest from rfl]
    rw [show dedupByRel codeDup kept (x :: rest)
        = if kept.any (fun y => codeDup y x) then dedupByRel codeDup kept rest
          else x :: dedupByRel codeDup (kept ++ [x]) rest from rfl]
    rw [hc]
    by_cases h : kept.any (fun y => codeDup y x) = true
    · rw [if_pos h, if_pos h]
      exact ih kept
    · rw [if_neg h, if_neg h]
      rw [show kept.map hashKey ++ [hashKey x] = (kept ++ [x]).map hashKey by simp]
      rw [ih (kept ++ [x])]

/-- C3 counterexample: under the claim's duplicate relation a scalar is
never a duplicate of a structured element, so the claimed result of
merging `['\x7b"a": 1\x7d']` with `[\x7b"a": 1\x7d]` keeps both elements;
`merge_data` collapses them because the scalar string equals the map's
canonical serialization. -/
theorem C3_seq_merge_counterexample :
    merge_data (PyVal.list [PyVal.str "\x7b\"a\": 1\x7d"])
        (PyVal.list [PyVal.dict [("a", PyVal.int 1)]])
      ≠ PyVal.list (claimSeqMerge [PyVal.str "\x7b\"a\": 1\x7d"]
        [PyVal.dict [("a", PyVal.int 1)]]) := by decide

/-- C3 (amended): sequence merge concatenates destination then source and
deduplicates keeping first occurrences, where two elements are duplicates
iff their dedup keys compare equal under Python `==` — the dedup key being
the canonical key-sorted serialization for a structured element and the
value itself for a scalar (so a scalar string byte-identical to a
structured element's serialization also counts as its duplicate). -/
theorem C3_seq_merge_amended (a b : List PyVal) :
    merge_data (PyVal.list a) (PyVal.list b) = PyVal.list (amendedSeqMerge a b) := by
  rw [show merge_data (PyVal.list a) (PyVal.list b)
      = PyVal.list (dedupSeen [] (a ++ b)) from rfl]
  rw [show ([] : List HKey) = ([] : List PyVal).map hashKey from rfl,
    dedupSeen_eq_dedupByRel]
  rfl

/-- C9: a scalar string that is byte-identical to the canonical key-sorted
serialization of a map is treated as that map's duplicate: merging the
sequence `['\x7b"a": 1\x7d']` with `[\x7b"a": 1\x7d]` yields the
one-element sequence `['\x7b"a": 1\x7d']`. -/
theorem C9_scalar_struct_collapse :
    merge_data (PyVal.list [PyVal.str "\x7b\"a\": 1\x7d"])
        (PyVal.list [PyVal.dict [("a", PyVal.int 1)]])
      = PyVal.list [PyVal.str "\x7b\"a\": 1\x7d"] := by decide

/-! Lemmas about the `seen` set, towards idempotence of the merge in its
second argument over normal sources. -/

theorem hkeyEq_refl (h : HKey) : hkeyEq h h = true := by
  cases h <;> simp [hkeyEq]

theorem seenContains_append (s1 s2 : List HKey) (h : HKey) :
    seenContains (s1 ++ s2) h = (seenContains s1 h || seenContains s2 h) := by
  simp [seenContains, List.any_append]

theorem seenContains_singleton (h1 h2 : HKey) :
    seenContains [h1] h2 = hkeyEq h1 h2 := by
  simp [seenContains]

theorem dedupSeen_nil_of_all_seen (l : List PyVal) (seen : List HKey)
    (h : ∀ x ∈ l, seenContains seen (hashKey x) = true) : dedupSeen seen l = [] := by
  induction l with
  | nil => rfl
  | cons x rest ih =>
    rw [show dedupSeen seen (x :: rest)
        = if seenContains seen (hashKey x) then dedupSeen seen rest
          else x :: dedupSeen (seen ++ [hashKey x]) rest from rfl,
      if_pos (h x (List.mem_cons_self x rest))]
    exact ih (fun y hy => h y (List.mem_cons_of_mem x hy))

/-- Deduplicating `l1 ++ l2` keeps exactly `l1` when `l1` is itself free of
duplicate keys, none of its keys is already seen, and every element of
`l2` is covered by `seen` or by an element of `l1`. -/
theorem dedupSeen_append_absorb (l1 : List PyVal) (seen : List HKey) (l2 : List PyVal)
    (h1 : l1.Pairwise (fun x y => hkeyEq (hashKey x) (hashKey y) = false))
    (h2 : ∀ x ∈ l1, seenContains seen (hashKey x) = false)
    (h3 : ∀ y ∈ l2, seenContains seen (hashKey y) = true
          ∨ ∃ x ∈ l1, hkeyEq (hashKey x) (hashKey y) = true) :
    dedupSeen seen (l1 ++ l2) = l1 := by
  induction l1 generalizing seen with
  | nil =>
    rw [List.nil_append]
    refine dedupSeen_nil_of_all_seen l2 seen (fun y hy => ?_)
    rcases h3 y hy with hc | ⟨x, hx, _⟩
    · exact hc
    · exact absurd hx (List.not_mem_nil x)
  | cons x rest ih =>
    obtain ⟨hhead, htail⟩ := List.pairwise_cons.mp h1
    have hx : seenContains seen (hashKey x) = false := h2 x (List.mem_cons_self x rest)
    rw [List.cons_append,
      show dedupSeen seen (x :: (rest ++ l2))
        = if seenContains seen (hashKey x) then dedupSeen seen (rest ++ l2)
          else x :: dedupSeen (seen ++ [hashKey x]) (rest ++ l2) from rfl,
      if_neg (by rw [hx]; exact Bool.false_ne_true)]
    congr 1
    refine ih (seen ++ [hashKey x]) htail (fun z hz => ?_) (fun y hy => ?_)
    · rw [seenContains_append, h2 z (List.mem_cons_of_mem x hz),
        seenContains_singleton, hhead z hz]
      rfl
    · rcases h3 y hy with hc | ⟨x', hx', he⟩
      · left
        rw [seenContains_append, hc]
        rfl
      · rcases List.mem_cons.mp hx' with rfl | hx''
        · left
          rw [seenContains_append, seenContains_singleton, he]
          simp
        · exact Or.inr ⟨x', hx'', he⟩

/-- Every member of the input list is covered by `seen` or by a kept
element of the deduplicated output. -/
theorem dedupSeen_covers (l : List PyVal) (seen : List HKey) (y : PyVal) (hy : y ∈ l) :
    seenContains seen (hashKey y) = true
    ∨ ∃ x ∈ dedupSeen seen l, hkeyEq (hashKey x) (hashKey y) = true := by
  induction l generalizing seen with
  | nil => exact absurd hy (List.not_mem_nil y)
  | cons z rest ih =>
    by_cases hz : seenContains seen (hashKey z) = true
    · rw [show dedupSeen seen (z :: rest)
          = if seenContains seen (hashKey z) then dedupSeen seen rest
            else z :: dedupSeen (seen ++ [hashKey z]) rest from rfl, if_pos hz]
      rcases List.mem_cons.mp hy with rfl | hy'
      · exact Or.inl hz
      · exact ih seen hy' 
    · rw [show dedupSeen seen (z :: rest)
          = if seenContains seen (hashKey z) then dedupSeen seen rest
            else z :: dedupSeen (seen ++ [hashKey z]) rest from rfl, if_neg hz]
      rcases List.mem_cons.mp hy with rfl | hy'
      · exact Or.inr ⟨y, List.mem_cons_self y _, hkeyEq_refl _⟩
      · rcases ih (seen ++ [hashKey z]) hy' with hc | ⟨x, hx, he⟩
        · rw [seenContains_append, Bool.or_eq_true, seenContains_singleton] at hc
          rcases hc with hc | hc
          · exact Or.inl hc
          · exact Or.inr ⟨z, List.mem_cons_self z _, hc⟩
        · exact Or.inr ⟨x, List.mem_cons_of_mem z hx, he⟩

/-- No kept element's key was already in `seen`. -/
theorem dedupSeen_not_seen (l : List PyVal) (seen : List HKey) (x : PyVal)
    (hx : x ∈ dedupSeen seen l) : seenContains seen (hashKey x) = false := by
  induction l generalizing seen with
  | nil => exact absurd hx (List.not_mem_nil x)
  | cons z rest ih =>
    by_cases hz : seenContains seen (hashKey z) = true
    · rw [show dedupSeen seen (z :: rest)
          = if seenContains seen (hashKey z) then dedupSeen seen rest
            else z :: dedupSeen (seen ++ [hashKey z]) rest from rfl, if_pos hz] at hx
      exact ih seen hx
    · rw [show dedupSeen seen (z :: rest)
          = if seenContains seen (hashKey z) then dedupSeen seen rest
            else z :: dedupSeen (seen ++ [hashKey z]) rest from rfl, if_neg hz] at hx
      rcases List.mem_cons.mp hx with rfl | hx'
      · exact Bool.eq_false_iff.mpr hz
      · have h := ih (seen ++ [hashKey z]) hx'
        rw [seenContains_append, Bool.or_eq_false_iff] at h
        exact h.1

/-- Kept elements have pairwise distinct dedup keys. -/
theorem dedupSeen_pairwise (l : List PyVal) (seen : List HKey) :
    (dedupSeen seen l).Pairwise (fun x y => hkeyEq (hashKey x) (hashKey y) = false) := by
  induction l generalizing seen with
  | nil => exact List.Pairwise.nil
  | cons z rest ih =>
    by_cases hz : seenContains seen (hashKey z) = true
    · rw [show dedupSeen seen (z :: rest)
          = if seenContains seen (hashKey z) then dedupSeen seen rest
            else z :: dedupSeen (seen ++ [hashKey z]) rest from rfl, if_pos hz]
      exact ih seen
    · rw [show dedupSeen seen (z :: rest)
          = if seenContains seen (hashKey z) then dedupSeen seen rest
            else z :: dedupSeen (seen ++ [hashKey z]) rest from rfl, if_neg hz]
      refine List.pairwise_cons.mpr ⟨fun y hy => ?_, ih (seen ++ [hashKey z])⟩
      have h := dedupSeen_not_seen rest (seen ++ [hashKey z]) y hy
      rw [seenContains_append, Bool.or_eq_false_iff, seenContains_singleton] at h
      exact h.2

theorem dictGet_of_mem_nodup (l : List (String × PyVal)) (k : String) (v : PyVal)
    (hn : (l.map Prod.fst).Nodup) (hm : (k, v) ∈ l) : dictGet l k = Option.some v := by
  induction l with
  | nil => exact absurd hm (List.not_mem_nil _)
  | cons p rest ih =>
    rw [List.map_cons] at hn
    obtain ⟨hn1, hn2⟩ := List.nodup_cons.mp hn
    rcases List.mem_cons.mp hm with rfl | hm'
    · simp [dictGet]
    · have hne : p.1 ≠ k := by
        intro e
        exact hn1 (e ▸ List.mem_map_of_mem Prod.fst hm')
      simp [dictGet, hne, ih hn2 hm']

theorem normalEntries_mem (l : List (String × PyVal)) (p : String × PyVal)
    (h : normalEntries l = true) (hp : p ∈ l) : normal p.2 = true := by
  induction l with
  | nil => exact absurd hp (List.not_mem_nil _)
  | cons q rest ih =>
    rw [show normalEntries (q :: rest) = (normal q.2 && normalEntries rest) from rfl,
      Bool.and_eq_true] at h
    rcases List.mem_cons.mp hp with rfl | hp'
    · exact h.1
    · exact ih h.2 hp'

/-- Replaying a source dict whose every entry is already absorbed (the key
is bound to a value that the entry's value cannot change) leaves the
destination untouched. -/
theorem mergeDict_absorb (b a : List (String × PyVal))
    (h : ∀ p ∈ b, ∃ w, dictGet a p.1 = Option.some w ∧ merge_data w p.2 = w) :
    mergeDict a b = a := by
  induction b generalizing a with
  | nil => rfl
  | cons p rest ih =>
    obtain ⟨k0, v0⟩ := p
    obtain ⟨w, hw, hfix⟩ := h (k0, v0) (List.mem_cons_self _ _)
    rw [show mergeDict a ((k0, v0) :: rest)
        = mergeDict (dictSet a k0 (match dictGet a k0 with
            | Option.some av => merge_data av v0
            | Option.none => v0)) rest from rfl]
    have habs : dictSet a k0 (match dictGet a k0 with
        | Option.some av => merge_data av v0
        | Option.none => v0) = a := by
      rw [hw]
      rw [show (match Option.some w with
          | Option.some av => merge_data av v0
          | Option.none => v0) = merge_data w v0 from rfl, hfix]
      exact dictSet_self a k0 w hw
    rw [habs]
    exact ih a (fun q hq => h q (List.mem_cons_of_mem _ hq))

/-- Merging a normal value into itself returns it unchanged. -/
theorem merge_data_self : ∀ (B : PyVal), normal B = true → merge_data B B = B
  | PyVal.str _, _ => rfl
  | PyVal.int _, _ => rfl
  | PyVal.bool _, _ => rfl
  | PyVal.none, _ => rfl
  | PyVal.dict l, h => by
    rw [show normal (PyVal.dict l)
        = (decide ((l.map Prod.fst).Nodup) && normalEntries l) from rfl,
      Bool.and_eq_true, decide_eq_true_eq] at h
    show PyVal.dict (mergeDict l l) = PyVal.dict l
    congr 1
    refine mergeDict_absorb l l (fun p hp => ?_)
    exact ⟨p.2, dictGet_of_mem_nodup l p.1 p.2 h.1 hp,
      merge_data_self p.2 (normalEntries_mem l p h.2 hp)⟩
  | PyVal.list l, h => by
    rw [show normal (PyVal.list l)
        = (decide (l.Pairwise (fun x y => hkeyEq (hashKey x) (hashKey y) = false))
            && normalList l) from rfl,
      Bool.and_eq_true, decide_eq_true_eq] at h
    show PyVal.list (dedupSeen [] (l ++ l)) = PyVal.list l
    congr 1
    refine dedupSeen_append_absorb l [] l h.1 (fun x _ => rfl) (fun y hy => ?_)
    exact Or.inr ⟨y, hy, hkeyEq_refl _⟩
termination_by B _ => sizeOf B
decreasing_by
  all_goals simp_wf
  all_goals have hs := List.sizeOf_lt_of_mem hp
  all_goals obtain ⟨k1, v1⟩ := p
  all_goals simp at hs ⊢
  all_goals omega

/-- Merging the same normal source twice is the same as merging it once. -/
theorem merge_data_absorb : ∀ (B A : PyVal), normal B = true →
    merge_data (merge_data A B) B = merge_data A B
  | PyVal.str _, A, h => by
    have h1 : ∀ s, merge_data A (PyVal.str s) = PyVal.str s := fun s => by cases A <;> rfl
    rw [h1]
    rfl
  | PyVal.int _, A, h => by
    have h1 : ∀ n, merge_data A (PyVal.int n) = PyVal.int n := fun n => by cases A <;> rfl
    rw [h1]
    rfl
  | PyVal.bool _, A, h => by
    have h1 : ∀ b, merge_data A (PyVal.bool b) = PyVal.bool b := fun b => by cases A <;> rfl
    rw [h1]
    rfl
  | PyVal.none, A, h => by
    have h1 : merge_data A PyVal.none = PyVal.none := by cases A <;> rfl
    rw [h1]
    rfl
  | PyVal.dict bl, A, h => by
    have hh := h
    rw [show normal (PyVal.dict bl)
        = (decide ((bl.map Prod.fst).Nodup) && normalEntries bl) from rfl,
      Bool.and_eq_true, decide_eq_true_eq] at hh
    cases A with
    | dict al =>
      show PyVal.dict (mergeDict (mergeDict al bl) bl) = PyVal.dict (mergeDict al bl)
      congr 1
      refine mergeDict_absorb bl (mergeDict al bl) (fun p hp => ?_)
      have hget : dictGet bl p.1 = Option.some p.2 :=
        dictGet_of_mem_nodup bl p.1 p.2 hh.1 hp
      have hM := mergeDict_get bl al hh.1 p.1
      rw [hget] at hM
      have hnorm : normal p.2 = true := normalEntries_mem bl p hh.2 hp
      cases hal : dictGet al p.1 with
      | none =>
        rw [hal] at hM
        exact ⟨p.2, hM, merge_data_self p.2 hnorm⟩
      | some av =>
        rw [hal] at hM
        exact ⟨merge_data av p.2, hM, merge_data_absorb p.2 av hnorm⟩
    | str s => exact merge_data_self (PyVal.dict bl) h
    | int n => exact merge_data_self (PyVal.dict bl) h
    | bool b => exact merge_data_self (PyVal.dict bl) h
    | none => exact merge_data_self (PyVal.dict bl) h
    | list l => exact merge_data_self (PyVal.dict bl) h
  | PyVal.list bl, A, h => by
    have hh := h
    rw [show normal (PyVal.list bl)
        = (decide (bl.Pairwise (fun x y => hkeyEq (hashKey x) (hashKey y) = false))
            && normalList bl) from rfl,
      Bool.and_eq_true, decide_eq_true_eq] at hh
    cases A with
    | list al =>
      show PyVal.list (dedupSeen [] (dedupSeen [] (al ++ bl) ++ bl))
          = PyVal.list (dedupSeen [] (al ++ bl))
      congr 1
      refine dedupSeen_append_absorb (dedupSeen [] (al ++ bl)) [] bl
        (dedupSeen_pairwise _ _) (fun x _ => rfl) (fun y hy => ?_)
      rcases dedupSeen_covers (al ++ bl) [] y (List.mem_append_right al hy) with hc | hex
      · rw [show seenContains [] (hashKey y) = false from rfl] at hc
        exact absurd hc Bool.false_ne_true
      · exact Or.inr hex
    | str s => exact merge_data_self (PyVal.list bl) h
    | int n => exact merge_data_self (PyVal.list bl) h
    | bool b => exact merge_data_self (PyVal.list bl) h
    | none => exact merge_data_self (PyVal.list bl) h
    | dict l => exact merge_data_self (PyVal.list bl) h
termination_by B _ _ => sizeOf B
decreasing_by
  all_goals simp_wf
  all_goals have hs := List.sizeOf_lt_of_mem hp
  all_goals obtain ⟨k1, v1⟩ := p
  all_goals simp at hs ⊢
  all_goals omega

/-- C5 counterexample: with `A = \x7b\x7d` and
`B = \x7b"k": [1, 1]\x7d`, the first merge inserts `B`'s list unchanged
(`[1, 1]`), while the second merge deduplicates it to `[1]`, so
`merge(merge(A,B),B) ≠ merge(A,B)`. -/
theorem C5_idempotent_counterexample :
    merge_data
        (merge_data (PyVal.dict [])
          (PyVal.dict [("k", PyVal.list [PyVal.int 1, PyVal.int 1])]))
        (PyVal.dict [("k", PyVal.list [PyVal.int 1, PyVal.int 1])])
      ≠ merge_data (PyVal.dict [])
          (PyVal.dict [("k", PyVal.list [PyVal.int 1, PyVal.int 1])]) := by decide

/-- C5 (amended): `merge(merge(A,B),B) = merge(A,B)` for every destination
`A` provided the source `B` is normal — every map inside `B` has unique
keys (the invariant of every Python dict) and no sequence inside `B`
contains two elements with equal dedup keys. -/
theorem C5_idempotent_amended (A B : PyVal) (h : normal B = true) :
    merge_data (merge_data A B) B = merge_data A B :=
  merge_data_absorb B A h

/-- Witness for C5 at `A = \x7b\x7d`, `B = \x7b"k": [1, 2]\x7d`. -/
theorem C5_idempotent_amended_witness :
    normal (PyVal.dict [("k", PyVal.list [PyVal.int 1, PyVal.int 2])]) = true
    ∧ merge_data
        (merge_data (PyVal.dict [])
          (PyVal.dict [("k", PyVal.list [PyVal.int 1, PyVal.int 2])]))
        (PyVal.dict [("k", PyVal.list [PyVal.int 1, PyVal.int 2])])
      = merge_data (PyVal.dict [])
          (PyVal.dict [("k", PyVal.list [PyVal.int 1, PyVal.int 2])]) :=
  ⟨by decide, C5_idempotent_amended _ _ (by decide)⟩

/-! The XML engine: child-by-child processing, first-match-wins, append
when unmatched. -/

theorem mergeInto_foldl (ch2 ch1 : List XmlElem) :
    mergeInto ch1 ch2 = ch2.foldl insertChild ch1 := by
  induction ch2 generalizing ch1 with
  | nil => simp only [mergeInto, List.foldl_nil]
  | cons c2 rest ih => simp only [mergeInto, List.foldl_cons, ih]

theorem insertChild_no_match (pre : List XmlElem) (c2 : XmlElem)
    (hpre : ∀ c ∈ pre, elemMatch c c2 = false) :
    insertChild pre c2 = pre ++ [c2] := by
  induction pre with
  | nil => simp only [insertChild, List.nil_append]
  | cons p rest ih =>
    have hp : elemMatch p c2 = false := hpre p (List.mem_cons_self _ _)
    simp only [insertChild, hp, Bool.false_eq_true, if_false, List.cons_append]
    rw [ih (fun c hc => hpre c (List.mem_cons_of_mem _ hc))]

theorem insertChild_first_match (pre suf : List XmlElem) (c1 c2 : XmlElem)
    (hpre : ∀ c ∈ pre, elemMatch c c2 = false) (hc1 : elemMatch c1 c2 = true) :
    insertChild (pre ++ c1 :: suf) c2 = pre ++ merge_elements c1 c2 :: suf := by
  induction pre with
  | nil => simp only [List.nil_append, insertChild, hc1, if_true]
  | cons p rest ih =>
    have hp : elemMatch p c2 = false := hpre p (List.mem_cons_self _ _)
    simp only [List.cons_append, insertChild, hp, Bool.false_eq_true, if_false]
    rw [ih (fun c hc => hpre c (List.mem_cons_of_mem _ hc))]

/-- C4: the XML merge walks the source element's children in order and
folds each one into the destination's child list; an unmatched source
child (no destination child with the same tag and attributes) is appended
unmodified at the end, and a matched source child is merged recursively
into the first matching destination child, leaving the children before
and after that first match untouched. -/
theorem C4_xml_merge (e1 c1 c2 : XmlElem) (t : String)
    (attrs : List (String × String)) (ch2 pre suf : List XmlElem)
    (hpre : ∀ c ∈ pre, elemMatch c c2 = false)
    (hc1 : elemMatch c1 c2 = true) :
    merge_xml_trees e1 (XmlElem.mk t attrs ch2)
      = XmlElem.mk e1.tag e1.attrib (ch2.foldl insertChild e1.children)
    ∧ insertChild (pre ++ c1 :: suf) c2 = pre ++ merge_elements c1 c2 :: suf
    ∧ insertChild pre c2 = pre ++ [c2] := by
  refine ⟨?_, insertChild_first_match pre suf c1 c2 hpre hc1,
    insertChild_no_match pre c2 hpre⟩
  cases e1 with
  | mk t1 a1 ch1 =>
    rw [merge_xml_trees]
    simp only [merge_elements, XmlElem.tag, XmlElem.attrib, XmlElem.children,
      mergeInto_foldl]

/-- Witness for C4: destination children `<a id="1"/>, <b/>`, one source
child `<a id="1"><x/></a>` matching the first destination child. -/
theorem C4_xml_merge_witness :
    merge_xml_trees
        (XmlElem.mk "root" [] [XmlElem.mk "a" [("id", "1")] [], XmlElem.mk "b" [] []])
        (XmlElem.mk "root" []
          [XmlElem.mk "a" [("id", "1")] [XmlElem.mk "x" [] []]])
      = XmlElem.mk "root" []
          ([XmlElem.mk "a" [("id", "1")] [XmlElem.mk "x" [] []]].foldl insertChild
            [XmlElem.mk "a" [("id", "1")] [], XmlElem.mk "b" [] []])
    ∧ insertChild
        ([] ++ XmlElem.mk "a" [("id", "1")] [] :: [XmlElem.mk "b" [] []])
        (XmlElem.mk "a" [("id", "1")] [XmlElem.mk "x" [] []])
      = [] ++ merge_elements (XmlElem.mk "a" [("id", "1")] [])
            (XmlElem.mk "a" [("id", "1")] [XmlElem.mk "x" [] []]) :: [XmlElem.mk "b" [] []]
    ∧ insertChild [] (XmlElem.mk "a" [("id", "1")] [XmlElem.mk "x" [] []])
        = [] ++ [XmlElem.mk "a" [("id", "1")] [XmlElem.mk "x" [] []]] :=
  C4_xml_merge
    (XmlElem.mk "root" [] [XmlElem.mk "a" [("id", "1")] [], XmlElem.mk "b" [] []])
    (XmlElem.mk "a" [("id", "1")] [])
    (XmlElem.mk "a" [("id", "1")] [XmlElem.mk "x" [] []])
    "root" []
    [XmlElem.mk "a" [("id", "1")] [XmlElem.mk "x" [] []]]
    [] [XmlElem.mk "b" [] []]
    (by decide) (by decide)

/-- C7: when a source child matches a destination child (same tag and
attributes), the recursive merge leaves the matched destination element's
tag and attribute mapping entirely unchanged; source attributes are used
for identity only and are never propagated. -/
theorem C7_attrs_not_merged (c1 c2 : XmlElem) (h : elemMatch c1 c2 = true) :
    (merge_elements c1 c2).tag = c1.tag
    ∧ (merge_elements c1 c2).attrib = c1.attrib := by
  cases c1 with
  | mk t1 a1 ch1 =>
    cases c2 with
    | mk t2 a2 ch2 =>
      simp [merge_elements, XmlElem.tag, XmlElem.attrib]

/-- Witness for C7: the matched destination element keeps attribute list
`[("id", "1")]` even though the source carries `[("id", "1")]` plus
nothing it could add (matching requires equal attribute dicts). -/
theorem C7_attrs_not_merged_witness :
    (merge_elements (XmlElem.mk "a" [("id", "1")] [])
        (XmlElem.mk "a" [("id", "1")] [XmlElem.mk "x" [] []])).attrib
      = [("id", "1")] := by
  have h := C7_attrs_not_merged (XmlElem.mk "a" [("id", "1")] [])
    (XmlElem.mk "a" [("id", "1")] [XmlElem.mk "x" [] []]) (by decide)
  exact h.2.trans rfl

/-- C6: both engines are total deterministic functions: for any two
Document Model values and any two XML element trees there is exactly one
result value, and no error outcome exists in either engine's type. -/
theorem C6_engines_total :
    (∀ a b : PyVal, ∃! r : PyVal, merge_data a b = r)
    ∧ (∀ t1 t2 : XmlElem, ∃! r : XmlElem, merge_xml_trees t1 t2 = r) :=
  ⟨fun a b => ⟨merge_data a b, rfl, fun _ h => h.symm⟩,
   fun t1 t2 => ⟨merge_xml_trees t1 t2, rfl, fun _ h => h.symm⟩⟩

/-- C8: when either root folder is missing, the run produces only the
diagnostic and performs no file I/O at all — nothing is copied, merged,
written, and no directory is created. -/
theorem C8_missing_roots (fs : Fs) (h : fs.aExists = false ∨ fs.bExists = false) :
    merge_folders fs = [FsAction.print "One or both folders do not exist."]
    ∧ (merge_folders fs).all (fun act => !isFileOp act) = true := by
  have hcond : (!fs.aExists || !fs.bExists) = true := by
    rcases h with h | h <;> rw [h] <;> simp
  constructor
  · rw [merge_folders, if_pos hcond]
  · rw [merge_folders, if_pos hcond]
    rfl

/-- Witness for C8: a file system whose source root is missing but whose
walk would otherwise produce work. -/
theorem C8_missing_roots_witness :
    merge_folders
        (Fs.mk false true [("", ["a.json"])] (fun _ => true)
          (fun _ => Option.none) (fun _ => Option.none))
      = [FsAction.print "One or both folders do not exist."]
    ∧ (merge_folders
        (Fs.mk false true [("", ["a.json"])] (fun _ => true)
          (fun _ => Option.none) (fun _ => Option.none))).all
        (fun act => !isFileOp act) = true :=
  C8_missing_roots
    (Fs.mk false true [("", ["a.json"])] (fun _ => true)
      (fun _ => Option.none) (fun _ => Option.none))
    (Or.inl rfl)
